import Mathlib

/-!
Verification of the signup-sequencer core components against their
natural-language specification.

The development shallowly embeds three Rust components:

* `src/task_monitor/tasks/insert_identities.rs` — the insertion pipeline:
  one cycle of the `insert_identities` loop is modelled by `processBatch`,
  which records the completion events sent, the argument passed to
  `append_many`, the successful `insert_pending_identity` calls, and how
  the cycle ended (ok, database error, or fatal assertion failure).
  The database and the tree are the opaque collaborators the code calls
  into; they are parameters of the model.
* `src/prover/map.rs` — `ProverMap::get`, modelled over the ascending
  key-ordered association list that a `BTreeMap` iteration yields.
* `src/timed_read_progress_lock.rs` — the three-stage timed lock, modelled
  twice: a timeout model (`timedAcquire` et al.) for the bounded-wait and
  error-reporting contract, and a transition system (`Step` / `Reachable`)
  for the mutual-exclusion discipline of the progress mutex and the
  reader-writer lock.
-/

namespace SignupSequencer

/-! ### Data model of the insertion pipeline -/

/-- Identity commitment hash (`Hash` in the Rust code), modelled as `Nat`. -/
abbrev Hash := Nat

/-- Identifier standing for a request's unique one-shot completion sender. -/
abbrev ReqId := Nat

/-- `IdentityInsert { identity, on_complete }`: the one-shot sender is
modelled by the identifier `reqId`. -/
structure IdentityInsert where
  identity : Hash
  reqId : ReqId
deriving DecidableEq, Repr

/-- `Status::Pending` is the only status the pipeline produces. -/
inductive Status where
  | Pending
deriving DecidableEq, Repr

/-- `OnInsertComplete`: either `DuplicateCommitment` or
`Proof(InclusionProof { status, root, proof })`. Root and proof payloads
are modelled as numbers. -/
inductive OnInsertComplete where
  | DuplicateCommitment
  | Proof (status : Status) (root : Nat) (proof : Nat)
deriving DecidableEq, Repr

/-- A completion signal sent on a request's one-shot channel. -/
abbrev Completion := ReqId × OnInsertComplete

/-- Opaque database error (`anyhow::Error` carried out by `?`). -/
inductive DbError where
  | ioError (code : Nat)
deriving DecidableEq, Repr

/-- The `Database` collaborator, restricted to the three calls the
pipeline makes. Each call may fail, as the Rust calls may. -/
structure Database where
  getIdentityLeafIndex : Hash → Except DbError (Option Nat)
  getNextLeafIndex : Except DbError Nat
  insertPendingIdentity : Nat → Hash → Nat → Except DbError Unit

/-- One element of the sequence returned by `append_many`:
`(root, proof, leaf_index)`. -/
structure TreeResult where
  root : Nat
  proof : Nat
  leafIndex : Nat
deriving DecidableEq, Repr

/-- The `TreeVersion<Latest>` collaborator: `next_leaf()` and
`append_many`. `append_many` is an arbitrary function, as the tree is an
opaque capability. -/
structure TreeVersion where
  nextLeaf : Nat
  appendMany : List Hash → List TreeResult

/-! ### The pipeline cycle, from `insert_identities.rs` -/

/-- The dedup loop (lines 76–90): scan in arrival order with a seen-set
(`commitments_set`, modelled as the list of seen hashes); a request whose
identity was already seen is completed `DuplicateCommitment`, otherwise it
is kept. Returns (completions sent, kept requests). -/
def dedupGo : List Hash → List IdentityInsert → List Completion × List IdentityInsert
  | _, [] => ([], [])
  | seen, i :: rest =>
    if i.identity ∈ seen then
      let r := dedupGo seen rest
      ((i.reqId, OnInsertComplete.DuplicateCommitment) :: r.1, r.2)
    else
      let r := dedupGo (i.identity :: seen) rest
      (r.1, i :: r.2)

/-- Intra-batch dedup starting from the empty seen-set. -/
def dedup (batch : List IdentityInsert) : List Completion × List IdentityInsert :=
  dedupGo [] batch

/-- The store-validation loop (lines 92–107): for each request, look up
its identity's leaf index; `Some` completes the request as
`DuplicateCommitment`, `None` keeps it; a lookup error aborts the loop
(the `?` operator). Returns (completions sent, kept requests, error). -/
def validate (db : Database) :
    List IdentityInsert → List Completion × List IdentityInsert × Option DbError
  | [] => ([], [], none)
  | i :: rest =>
    match db.getIdentityLeafIndex i.identity with
    | Except.error e => ([], [], some e)
    | Except.ok (some _) =>
      let r := validate db rest
      ((i.reqId, OnInsertComplete.DuplicateCommitment) :: r.1, r.2.1, r.2.2)
    | Except.ok none =>
      let r := validate db rest
      (r.1, i :: r.2.1, r.2.2)

/-- `three_way_zip` (lines 164–170). -/
def threeWayZip {A B C : Type} (a : List A) (b : List B) (c : List C) :
    List (A × B × C) :=
  ((a.zip b).zip c).map (fun p => (p.1.1, p.1.2, p.2))

/-- The persistence-and-completion loop (lines 138–155): for each
`((root, proof, leaf_index), identity, on_complete)` triple, call
`insert_pending_identity`; an error aborts the loop (the `?` operator);
on success the pending record is persisted and the request is completed
with `Proof { status: Pending, root, proof }`. Returns (completions sent,
persisted `(leaf_index, identity, root)` records, error). -/
def persistLoop (db : Database) :
    List (TreeResult × Hash × ReqId) →
      List Completion × List (Nat × Hash × Nat) × Option DbError
  | [] => ([], [], none)
  | (tr, ident, rid) :: rest =>
    match db.insertPendingIdentity tr.leafIndex ident tr.root with
    | Except.error e => ([], [], some e)
    | Except.ok _ =>
      let r := persistLoop db rest
      ((rid, OnInsertComplete.Proof Status.Pending tr.root tr.proof) :: r.1,
        (tr.leafIndex, ident, tr.root) :: r.2.1, r.2.2)

/-- How one pipeline cycle ended: normally, with a propagated database
error, or with a fatal assertion failure (`assert!` / `assert_eq!`). -/
inductive CycleResult where
  | ok
  | dbErr (e : DbError)
  | fatal (msg : String)
deriving DecidableEq, Repr

/-- Observable trace of one pipeline cycle: the completion signals sent in
order, the argument passed to `append_many` (`none` when the append was
never attempted), the persisted pending records, and the cycle result. -/
structure CycleTrace where
  events : List Completion
  appended : Option (List Hash)
  persisted : List (Nat × Hash × Nat)
  result : CycleResult
deriving DecidableEq, Repr

/-- One cycle of the `insert_identities` loop (lines 64–159) on a drained
batch: intra-batch dedup, store validation, the tree/store consistency
`assert!`, `append_many`, the length `assert_eq!`, and the
persistence-and-completion loop. -/
def processBatch (db : Database) (tree : TreeVersion)
    (batch : List IdentityInsert) : CycleTrace :=
  let d := dedup batch
  let v := validate db d.2
  match v.2.2 with
  | some e => ⟨d.1 ++ v.1, none, [], CycleResult.dbErr e⟩
  | none =>
    match db.getNextLeafIndex with
    | Except.error e => ⟨d.1 ++ v.1, none, [], CycleResult.dbErr e⟩
    | Except.ok nextDbIndex =>
      if tree.nextLeaf ≠ nextDbIndex then
        ⟨d.1 ++ v.1, none, [], CycleResult.fatal ("Database and tree are out of sync")⟩
      else
        let identities := v.2.1.map (·.identity)
        let onCompletes := v.2.1.map (·.reqId)
        let data := tree.appendMany identities
        if data.length ≠ identities.length then
          ⟨d.1 ++ v.1, some identities, [],
            CycleResult.fatal ("Length mismatch when appending identities to tree")⟩
        else
          let p := persistLoop db (threeWayZip data identities onCompletes)
          ⟨d.1 ++ v.1 ++ p.1, some identities, p.2.1,
            match p.2.2 with
            | some e => CycleResult.dbErr e
            | none => CycleResult.ok⟩

/-! ### Prover map, from `prover/map.rs` -/

namespace ProverMap

/-- `ProverMap::get` (lines 26–34): iterate the `BTreeMap` entries in
ascending key order and return the first prover whose ceiling is at least
`batchSize`. The map is modelled as the ascending association list the
`BTreeMap` iteration yields. -/
def get {P : Type} : List (Nat × P) → Nat → Option P
  | [], _ => none
  | (size, prover) :: rest, batchSize =>
    if batchSize ≤ size then some prover else get rest batchSize

/-- The `BTreeMap` iteration invariant: keys strictly ascending. -/
def KeysAscending {P : Type} (m : List (Nat × P)) : Prop :=
  List.Pairwise (fun a b => a.1 < b.1) m

end ProverMap

instance {P : Type} [DecidableEq P] (m : List (Nat × P)) :
    Decidable (ProverMap.KeysAscending m) := by
  unfold ProverMap.KeysAscending
  infer_instance

/-! ### Timed staged lock, timeout model, from `timed_read_progress_lock.rs` -/

/-- `Operation`: which acquisition timed out. -/
inductive Operation where
  | Read
  | Progress
  | Write
deriving DecidableEq, Repr

/-- The `Error` struct: operation that timed out plus the configured
duration. -/
structure LockError where
  operation : Operation
  duration : Nat
deriving DecidableEq, Repr

/-- Model of `tokio::time::timeout(duration, acquire)`: the underlying
acquisition completes after `t` abstract time units; if `t` exceeds the
configured duration the result is `Error { operation, duration }`. -/
def timedAcquire {G : Type} (duration : Nat) (op : Operation) (t : Nat)
    (g : G) : Except LockError G :=
  if t ≤ duration then Except.ok g else Except.error ⟨op, duration⟩

/-- `TimedReadProgressLock<T>`: the configured duration and the protected
value. -/
structure TimedReadProgressLock (T : Type) where
  duration : Nat
  value : T

/-- A read guard (`RwLockReadGuard`). -/
structure ReadGuard (T : Type) where
  value : T
deriving Repr

/-- A progress guard: holds the progress mutex and a read view; carries
the lock's duration for a later upgrade (as the Rust struct does). -/
structure ProgressGuard (T : Type) where
  duration : Nat
  value : T
deriving Repr

/-- A write guard: holds the progress mutex and the write view. -/
structure WriteGuard (T : Type) where
  duration : Nat
  value : T
deriving Repr

/-- `read()` (lines 71–78): timeout-bounded shared read acquisition;
failure is tagged `Operation::Read`. -/
def TimedReadProgressLock.read {T : Type} (l : TimedReadProgressLock T)
    (t : Nat) : Except LockError (ReadGuard T) :=
  timedAcquire l.duration Operation.Read t ⟨l.value⟩

/-- `progress()` (lines 80–96): timeout-bounded acquisition of the
progress mutex then a read view; failure is tagged `Operation::Progress`. -/
def TimedReadProgressLock.progress {T : Type} (l : TimedReadProgressLock T)
    (t : Nat) : Except LockError (ProgressGuard T) :=
  timedAcquire l.duration Operation.Progress t ⟨l.duration, l.value⟩

/-- `write()` (lines 98–114): timeout-bounded acquisition of the progress
mutex then the write view; failure is tagged `Operation::Write`. -/
def TimedReadProgressLock.write {T : Type} (l : TimedReadProgressLock T)
    (t : Nat) : Except LockError (WriteGuard T) :=
  timedAcquire l.duration Operation.Write t ⟨l.duration, l.value⟩

/-- `ProgressGuard::upgrade_to_write` (lines 131–147): drop the read view,
then timeout-bounded acquisition of the write view under the guard's
stored duration; failure is tagged `Operation::Write`. -/
def ProgressGuard.upgradeToWrite {T : Type} (g : ProgressGuard T)
    (t : Nat) : Except LockError (WriteGuard T) :=
  timedAcquire g.duration Operation.Write t ⟨g.duration, g.value⟩

/-! ### Timed staged lock, mutual-exclusion transition system

The staging discipline is modelled as a labelled-free transition system
over the joint state of the progress mutex (`tokio::sync::Mutex<()>`,
at most one owner) and the reader-writer lock (`tokio::sync::RwLock<T>`,
readers excluded by the writer). Each `Step` constructor is one
lock-primitive transition the code performs. -/

/-- A caller (task) identifier. -/
abbrev Caller := Nat

/-- Joint state of the two underlying primitives: current read-view
holders, the progress-mutex owner, the write-view holder. -/
structure LockState where
  readers : List Caller
  progressOwner : Option Caller
  writer : Option Caller
deriving DecidableEq, Repr

/-- The transitions the code can perform on the underlying primitives.

* `acquireRead` — `read()`, or the read-view half of `progress()`: the
  `RwLock` grants a read view whenever no write view is held, regardless
  of who owns the progress mutex.
* `releaseRead` — dropping a read guard (also the `drop` at the start of
  `upgrade_to_write`).
* `acquireToken` — the `progress_mutex.lock()` half of `progress()` and
  `write()`: granted only when the mutex is free.
* `acquireWriteView` — `rw_lock.write_owned()` in `write()` or
  `upgrade_to_write`: only ever executed by the current progress-mutex
  owner, and granted only when no read view and no write view is held.
* `releaseWriteGuard` — dropping a `WriteGuard` releases the write view
  and the mutex together.
* `releaseProgressGuard` — dropping a `ProgressGuard` releases its read
  view and the mutex together.
* `downgradeToProgress` — `WriteGuard::downgrade_to_progress`: atomically
  trades the write view for a read view, keeping the mutex. -/
inductive Step : LockState → LockState → Prop where
  | acquireRead (s : LockState) (c : Caller) (hw : s.writer = none) :
      Step s { s with readers := c :: s.readers }
  | releaseRead (s : LockState) (c : Caller) (hc : c ∈ s.readers) :
      Step s { s with readers := s.readers.erase c }
  | acquireToken (s : LockState) (c : Caller) (hp : s.progressOwner = none) :
      Step s { s with progressOwner := some c }
  | acquireWriteView (s : LockState) (c : Caller)
      (hp : s.progressOwner = some c) (hr : s.readers = [])
      (hw : s.writer = none) :
      Step s { s with writer := some c }
  | releaseWriteGuard (s : LockState) (c : Caller)
      (hw : s.writer = some c) (hp : s.progressOwner = some c) :
      Step s { s with writer := none, progressOwner := none }
  | releaseProgressGuard (s : LockState) (c : Caller)
      (hp : s.progressOwner = some c) (hw : s.writer = none) :
      Step s { s with progressOwner := none, readers := s.readers.erase c }
  | downgradeToProgress (s : LockState) (c : Caller)
      (hw : s.writer = some c) :
      Step s { s with writer := none, readers := c :: s.readers }

/-- The state at construction: no holders. -/
def initialLockState : LockState := ⟨[], none, none⟩

/-- States reachable from construction via the code's transitions. -/
inductive Reachable : LockState → Prop where
  | init : Reachable initialLockState
  | step {s s' : LockState} : Reachable s → Step s s' → Reachable s'

/-- Caller `c` holds the Progress or Write stage: both stages own the
progress mutex. -/
def holdsStage (s : LockState) (c : Caller) : Prop :=
  s.progressOwner = some c ∨ s.writer = some c

end SignupSequencer

namespace SignupSequencer

/-- The completion the loop sends for one zipped item. -/
def completionOf (x : TreeResult × Hash × ReqId) : Completion :=
  (x.2.2, OnInsertComplete.Proof Status.Pending x.1.root x.1.proof)

/-- The pending record the loop persists for one zipped item. -/
def recordOf (x : TreeResult × Hash × ReqId) : Nat × Hash × Nat :=
  (x.1.leafIndex, x.2.1, x.1.root)

/-! ### Lemmas on `ProverMap.get` -/

/-- A successful `get` returns an entry whose ceiling is at least the batch
size and minimal among all qualifying ceilings. -/
theorem proverMapGet_some_minimal {P : Type} (m : List (Nat × P))
    (hm : ProverMap.KeysAscending m) (batchSize : Nat) (p : P)
    (h : ProverMap.get m batchSize = some p) :
    ∃ s, (s, p) ∈ m ∧ batchSize ≤ s ∧
      ∀ s' p', (s', p') ∈ m → batchSize ≤ s' → s ≤ s' := by
  induction m with
  | nil => simp [ProverMap.get] at h
  | cons hd rest ih =>
    obtain ⟨s₀, p₀⟩ := hd
    rw [ProverMap.KeysAscending, List.pairwise_cons] at hm
    obtain ⟨hhd, hrest⟩ := hm
    by_cases hle : batchSize ≤ s₀
    · have hp : p = p₀ := by
        simp [ProverMap.get, hle] at h
        exact h.symm
      subst hp
      refine ⟨s₀, List.mem_cons_self _ _, hle, ?_⟩
      intro s' p' hmem _
      rcases List.mem_cons.mp hmem with heq | hmem'
      · exact le_of_eq (congrArg Prod.fst heq).symm
      · exact le_of_lt (hhd _ hmem')
    · simp only [ProverMap.get, if_neg hle] at h
      obtain ⟨s, hmem, hs, hmin⟩ := ih hrest h
      refine ⟨s, List.mem_cons_of_mem _ hmem, hs, ?_⟩
      intro s' p' hmem' hle'
      rcases List.mem_cons.mp hmem' with heq | hmem''
      · exfalso
        have hs' : s' = s₀ := congrArg Prod.fst heq
        omega
      · exact hmin s' p' hmem'' hle'


/-- `get` returns `none` exactly when every registered ceiling is below
the batch size. -/
theorem proverMapGet_none_iff {P : Type} (m : List (Nat × P))
    (batchSize : Nat) :
    ProverMap.get m batchSize = none ↔ ∀ s p, (s, p) ∈ m → s < batchSize := by
  induction m with
  | nil => simp [ProverMap.get]
  | cons hd rest ih =>
    obtain ⟨s₀, p₀⟩ := hd
    by_cases hle : batchSize ≤ s₀
    · simp only [ProverMap.get, if_pos hle]
      constructor
      · intro h
        exact absurd h (by simp)
      · intro h
        exfalso
        have := h s₀ p₀ (List.mem_cons_self _ _)
        omega
    · simp only [ProverMap.get, if_neg hle]
      rw [ih]
      constructor
      · intro h s p hmem
        rcases List.mem_cons.mp hmem with heq | hmem'
        · have hs : s = s₀ := congrArg Prod.fst heq
          omega
        · exact h s p hmem'
      · intro h s p hmem
        exact h s p (List.mem_cons_of_mem _ hmem)

/-- With strictly ascending keys, `get` returns exactly the prover
registered under the minimal qualifying ceiling. -/
theorem proverMapGet_eq_of_minimal {P : Type} (m : List (Nat × P))
    (hm : ProverMap.KeysAscending m) (batchSize s : Nat) (p : P)
    (hmem : (s, p) ∈ m) (hs : batchSize ≤ s)
    (hmin : ∀ s' p', (s', p') ∈ m → batchSize ≤ s' → s ≤ s') :
    ProverMap.get m batchSize = some p := by
  induction m with
  | nil => simp at hmem
  | cons hd rest ih =>
    obtain ⟨s₀, p₀⟩ := hd
    rw [ProverMap.KeysAscending, List.pairwise_cons] at hm
    obtain ⟨hhd, hrest⟩ := hm
    by_cases hle : batchSize ≤ s₀
    · simp only [ProverMap.get, if_pos hle]
      rcases List.mem_cons.mp hmem with heq | hmem'
      · exact congrArg some (congrArg Prod.snd heq).symm
      · exfalso
        have h1 := hmin s₀ p₀ (List.mem_cons_self _ _) hle
        have h2 := hhd _ hmem'
        simp at h2
        omega
    · simp only [ProverMap.get, if_neg hle]
      rcases List.mem_cons.mp hmem with heq | hmem'
      · exfalso
        have hseq : s = s₀ := congrArg Prod.fst heq
        omega
      · exact ih hrest hmem'
          (fun s' p' h' hle' => hmin s' p' (List.mem_cons_of_mem _ h') hle')

/-- C6: for every registry with ascending ceilings and every batch size,
`ProverMap.get` returns the prover registered under the smallest ceiling
that is at least the batch size, and returns `none` exactly when no
registered ceiling is large enough; in particular for ceilings
`{3, 5, 7}` the lookups behave as the specification's table states. -/
theorem proverMap_get_first_fit {P : Type} (m : List (Nat × P))
    (hm : ProverMap.KeysAscending m) (batchSize : Nat) :
    (∀ p, ProverMap.get m batchSize = some p →
      ∃ s, (s, p) ∈ m ∧ batchSize ≤ s ∧
        ∀ s' p', (s', p') ∈ m → batchSize ≤ s' → s ≤ s')
    ∧ (∀ s p, (s, p) ∈ m → batchSize ≤ s →
        (∀ s' p', (s', p') ∈ m → batchSize ≤ s' → s ≤ s') →
        ProverMap.get m batchSize = some p)
    ∧ (ProverMap.get m batchSize = none ↔ ∀ s p, (s, p) ∈ m → s < batchSize)
    ∧ (∀ p3 p5 p7 : P,
        ProverMap.get [(3, p3), (5, p5), (7, p7)] 1 = some p3 ∧
        ProverMap.get [(3, p3), (5, p5), (7, p7)] 2 = some p3 ∧
        ProverMap.get [(3, p3), (5, p5), (7, p7)] 3 = some p3 ∧
        ProverMap.get [(3, p3), (5, p5), (7, p7)] 4 = some p5 ∧
        ProverMap.get [(3, p3), (5, p5), (7, p7)] 5 = some p5 ∧
        ProverMap.get [(3, p3), (5, p5), (7, p7)] 7 = some p7 ∧
        ProverMap.get [(3, p3), (5, p5), (7, p7)] 8 = none) := by
  refine ⟨fun p h => proverMapGet_some_minimal m hm batchSize p h,
    fun s p hmem hs hmin => proverMapGet_eq_of_minimal m hm batchSize s p hmem hs hmin,
    proverMapGet_none_iff m batchSize,
    fun p3 p5 p7 => ?_⟩
  refine ⟨rfl, rfl, rfl, rfl, rfl, rfl, rfl⟩

/-- Witness for C6 at the registry `[(3, 30), (5, 50), (7, 70)]`. -/
theorem proverMap_get_first_fit_witness :
    ProverMap.KeysAscending ([(3, 30), (5, 50), (7, 70)] : List (Nat × Nat)) ∧
      ∀ s p, (s, p) ∈ ([(3, 30), (5, 50), (7, 70)] : List (Nat × Nat)) → s < 8 :=
  ⟨by decide,
    (proverMap_get_first_fit ([(3, 30), (5, 50), (7, 70)] : List (Nat × Nat))
        (by decide) 8).2.2.1.mp rfl⟩


/-! ### Lemmas on the intra-batch dedup loop -/

/-- Every completion the dedup loop sends is a `DuplicateCommitment`. -/
theorem dedupGo_events_dup (seen : List Hash) (l : List IdentityInsert) :
    ∀ e ∈ (dedupGo seen l).1, e.2 = OnInsertComplete.DuplicateCommitment := by
  induction l generalizing seen with
  | nil => simp [dedupGo]
  | cons i rest ih =>
    by_cases hmem : i.identity ∈ seen
    · simp only [dedupGo, if_pos hmem]
      intro e he
      rcases List.mem_cons.mp he with heq | he'
      · rw [heq]
      · exact ih seen e he'
    · simp only [dedupGo, if_neg hmem]
      exact ih (i.identity :: seen)

/-- The kept requests form a sublist of the batch (arrival order kept). -/
theorem dedupGo_kept_sublist (seen : List Hash) (l : List IdentityInsert) :
    (dedupGo seen l).2.Sublist l := by
  induction l generalizing seen with
  | nil => simp [dedupGo]
  | cons i rest ih =>
    by_cases hmem : i.identity ∈ seen
    · simp only [dedupGo, if_pos hmem]
      exact (ih seen).cons i
    · simp only [dedupGo, if_neg hmem]
      exact (ih (i.identity :: seen)).cons₂ i

/-- No kept request carries an identity that was already in the seen-set. -/
theorem dedupGo_kept_not_seen (seen : List Hash) (l : List IdentityInsert) :
    ∀ i ∈ (dedupGo seen l).2, i.identity ∉ seen := by
  induction l generalizing seen with
  | nil => simp [dedupGo]
  | cons i rest ih =>
    by_cases hmem : i.identity ∈ seen
    · simp only [dedupGo, if_pos hmem]
      exact ih seen
    · simp only [dedupGo, if_neg hmem]
      intro j hj
      rcases List.mem_cons.mp hj with heq | hj'
      · rw [heq]; exact hmem
      · intro hseen
        exact ih (i.identity :: seen) j hj' (List.mem_cons_of_mem _ hseen)

/-- The kept requests carry pairwise distinct identities. -/
theorem dedupGo_kept_nodup (seen : List Hash) (l : List IdentityInsert) :
    ((dedupGo seen l).2.map (·.identity)).Nodup := by
  induction l generalizing seen with
  | nil => simp [dedupGo]
  | cons i rest ih =>
    by_cases hmem : i.identity ∈ seen
    · simp only [dedupGo, if_pos hmem]
      exact ih seen
    · simp only [dedupGo, if_neg hmem, List.map_cons, List.nodup_cons]
      refine ⟨?_, ih (i.identity :: seen)⟩
      intro hc
      rcases List.mem_map.mp hc with ⟨j, hj, hja⟩
      exact dedupGo_kept_not_seen _ _ j hj
        (by rw [hja]; exact List.mem_cons_self _ _)

/-- An identity survives the dedup loop exactly when it occurs in the
batch and was not already seen. -/
theorem dedupGo_mem_identity (seen : List Hash) (l : List IdentityInsert)
    (h : Hash) :
    h ∈ (dedupGo seen l).2.map (·.identity) ↔
      h ∈ l.map (·.identity) ∧ h ∉ seen := by
  induction l generalizing seen with
  | nil => simp [dedupGo]
  | cons i rest ih =>
    by_cases hmem : i.identity ∈ seen
    · simp only [dedupGo, if_pos hmem, List.map_cons, List.mem_cons]
      rw [ih seen]
      constructor
      · exact fun hp => ⟨Or.inr hp.1, hp.2⟩
      · rintro ⟨h1 | h1, h2⟩
        · exact absurd (by rw [h1]; exact hmem) h2
        · exact ⟨h1, h2⟩
    · simp only [dedupGo, if_neg hmem, List.map_cons, List.mem_cons]
      rw [ih (i.identity :: seen)]
      constructor
      · rintro (heq | ⟨h1, h2⟩)
        · exact ⟨Or.inl heq, by rw [heq]; exact hmem⟩
        · exact ⟨Or.inr h1, fun hs => h2 (List.mem_cons_of_mem _ hs)⟩
      · rintro ⟨heq | h1, h2⟩
        · exact Or.inl heq
        · by_cases heq : h = i.identity
          · exact Or.inl heq
          · refine Or.inr ⟨h1, ?_⟩
            intro hs
            rcases List.mem_cons.mp hs with h3 | h3
            · exact heq h3
            · exact h2 h3

/-- Each kept request is the first request in the batch carrying its
identity. -/
theorem dedupGo_kept_first (seen : List Hash) (l : List IdentityInsert) :
    ∀ r ∈ (dedupGo seen l).2,
      l.find? (fun x => x.identity == r.identity) = some r := by
  induction l generalizing seen with
  | nil => simp [dedupGo]
  | cons i rest ih =>
    by_cases hmem : i.identity ∈ seen
    · simp only [dedupGo, if_pos hmem]
      intro r hr
      have hne : i.identity ≠ r.identity := by
        intro he
        exact dedupGo_kept_not_seen seen rest r hr (by rw [← he]; exact hmem)
      rw [List.find?_cons_of_neg _ (by simp [hne]), ih seen r hr]
    · simp only [dedupGo, if_neg hmem]
      intro r hr
      rcases List.mem_cons.mp hr with heq | hr'
      · subst heq
        rw [List.find?_cons_of_pos _ (by simp)]
      · have hne : i.identity ≠ r.identity := by
          intro he
          exact dedupGo_kept_not_seen (i.identity :: seen) rest r hr'
            (by rw [← he]; exact List.mem_cons_self _ _)
        rw [List.find?_cons_of_neg _ (by simp [hne]),
          ih (i.identity :: seen) r hr']

/-- The request identifiers of the dedup loop's completions and of its
kept requests together are a permutation of the batch's identifiers. -/
theorem dedupGo_perm (seen : List Hash) (l : List IdentityInsert) :
    ((dedupGo seen l).1.map Prod.fst ++
        (dedupGo seen l).2.map (·.reqId)).Perm (l.map (·.reqId)) := by
  induction l generalizing seen with
  | nil => simp [dedupGo]
  | cons i rest ih =>
    by_cases hmem : i.identity ∈ seen
    · simp only [dedupGo, if_pos hmem, List.map_cons, List.cons_append]
      exact (ih seen).cons i.reqId
    · simp only [dedupGo, if_neg hmem, List.map_cons]
      exact List.perm_middle.trans ((ih (i.identity :: seen)).cons i.reqId)


/-! ### Lemmas on the store-validation loop -/

/-- Every completion the validation loop sends is a `DuplicateCommitment`. -/
theorem validate_events_dup (db : Database) (l : List IdentityInsert) :
    ∀ e ∈ (validate db l).1, e.2 = OnInsertComplete.DuplicateCommitment := by
  induction l with
  | nil => simp [validate]
  | cons i rest ih =>
    rcases hdb : db.getIdentityLeafIndex i.identity with e | o
    · simp [validate, hdb]
    · match o with
      | some idx =>
        simp only [validate, hdb]
        intro e he
        rcases List.mem_cons.mp he with heq | he'
        · rw [heq]
        · exact ih e he'
      | none =>
        simp only [validate, hdb]
        exact ih

/-- The kept requests form a sublist of the validated list. -/
theorem validate_kept_sublist (db : Database) (l : List IdentityInsert) :
    (validate db l).2.1.Sublist l := by
  induction l with
  | nil => simp [validate]
  | cons i rest ih =>
    rcases hdb : db.getIdentityLeafIndex i.identity with e | o
    · simp [validate, hdb]
    · match o with
      | some idx =>
        simp only [validate, hdb]
        exact ih.cons i
      | none =>
        simp only [validate, hdb]
        exact ih.cons₂ i

/-- Every kept request's identity is absent from the store. -/
theorem validate_kept_none (db : Database) (l : List IdentityInsert) :
    ∀ i ∈ (validate db l).2.1,
      db.getIdentityLeafIndex i.identity = Except.ok none := by
  induction l with
  | nil => simp [validate]
  | cons i rest ih =>
    rcases hdb : db.getIdentityLeafIndex i.identity with e | o
    · simp [validate, hdb]
    · match o with
      | some idx =>
        simp only [validate, hdb]
        exact ih
      | none =>
        simp only [validate, hdb]
        intro j hj
        rcases List.mem_cons.mp hj with heq | hj'
        · rw [heq]; exact hdb
        · exact ih j hj'

/-- When every lookup succeeds, the validation loop reports no error. -/
theorem validate_no_error (db : Database) (l : List IdentityInsert)
    (h : ∀ i ∈ l, ∃ o, db.getIdentityLeafIndex i.identity = Except.ok o) :
    (validate db l).2.2 = none := by
  induction l with
  | nil => simp [validate]
  | cons i rest ih =>
    obtain ⟨o, ho⟩ := h i (List.mem_cons_self _ _)
    match o with
    | some idx =>
      simp only [validate, ho]
      exact ih fun j hj => h j (List.mem_cons_of_mem _ hj)
    | none =>
      simp only [validate, ho]
      exact ih fun j hj => h j (List.mem_cons_of_mem _ hj)

/-- When the loop finishes without error, every request whose identity is
in the store received a `DuplicateCommitment` completion. -/
theorem validate_dup_event (db : Database) (l : List IdentityInsert)
    (hne : (validate db l).2.2 = none) :
    ∀ i ∈ l, ∀ idx, db.getIdentityLeafIndex i.identity = Except.ok (some idx) →
      (i.reqId, OnInsertComplete.DuplicateCommitment) ∈ (validate db l).1 := by
  induction l with
  | nil => simp
  | cons i rest ih =>
    rcases hdb : db.getIdentityLeafIndex i.identity with e | o
    · rw [show validate db (i :: rest) = ([], [], some e) by
        simp [validate, hdb]] at hne
      exact absurd hne (by simp)
    · match o with
      | some idx =>
        simp only [validate, hdb] at hne ⊢
        intro j hj idx' hj'
        rcases List.mem_cons.mp hj with heq | hjr
        · subst heq
          exact List.mem_cons_self _ _
        · exact List.mem_cons_of_mem _ (ih hne j hjr idx' hj')
      | none =>
        simp only [validate, hdb] at hne ⊢
        intro j hj idx' hj'
        rcases List.mem_cons.mp hj with heq | hjr
        · subst heq
          rw [hdb] at hj'
          exact absurd hj' (by simp)
        · exact ih hne j hjr idx' hj'

/-- When the loop finishes without error, every request whose identity is
absent from the store was kept for admission. -/
theorem validate_kept_mem (db : Database) (l : List IdentityInsert)
    (hne : (validate db l).2.2 = none) :
    ∀ i ∈ l, db.getIdentityLeafIndex i.identity = Except.ok none →
      i ∈ (validate db l).2.1 := by
  induction l with
  | nil => simp
  | cons i rest ih =>
    rcases hdb : db.getIdentityLeafIndex i.identity with e | o
    · rw [show validate db (i :: rest) = ([], [], some e) by
        simp [validate, hdb]] at hne
      exact absurd hne (by simp)
    · match o with
      | some idx =>
        simp only [validate, hdb] at hne ⊢
        intro j hj hj'
        rcases List.mem_cons.mp hj with heq | hjr
        · subst heq
          rw [hdb] at hj'
          exact absurd hj' (by simp)
        · exact ih hne j hjr hj'
      | none =>
        simp only [validate, hdb] at hne ⊢
        intro j hj hj'
        rcases List.mem_cons.mp hj with heq | hjr
        · subst heq
          exact List.mem_cons_self _ _
        · exact List.mem_cons_of_mem _ (ih hne j hjr hj')

/-- When the loop finishes without error, the completion identifiers plus
the kept identifiers are a permutation of the input identifiers. -/
theorem validate_perm (db : Database) (l : List IdentityInsert)
    (hne : (validate db l).2.2 = none) :
    ((validate db l).1.map Prod.fst ++
        (validate db l).2.1.map (·.reqId)).Perm (l.map (·.reqId)) := by
  induction l with
  | nil => simp [validate]
  | cons i rest ih =>
    rcases hdb : db.getIdentityLeafIndex i.identity with e | o
    · rw [show validate db (i :: rest) = ([], [], some e) by
        simp [validate, hdb]] at hne
      exact absurd hne (by simp)
    · match o with
      | some idx =>
        simp only [validate, hdb] at hne ⊢
        simp only [List.map_cons, List.cons_append]
        exact (ih hne).cons i.reqId
      | none =>
        simp only [validate, hdb] at hne ⊢
        simp only [List.map_cons]
        exact List.perm_middle.trans ((ih hne).cons i.reqId)

/-- In every case (also after a lookup error), the completion identifiers
plus the kept identifiers inject into the input identifiers. -/
theorem validate_subperm (db : Database) (l : List IdentityInsert) :
    ((validate db l).1.map Prod.fst ++
        (validate db l).2.1.map (·.reqId)).Subperm (l.map (·.reqId)) := by
  induction l with
  | nil => simp [validate]
  | cons i rest ih =>
    rcases hdb : db.getIdentityLeafIndex i.identity with e | o
    · simp only [validate, hdb]
      simp only [List.map_nil, List.nil_append, List.map_cons]
      exact List.nil_subperm
    · match o with
      | some idx =>
        simp only [validate, hdb, List.map_cons, List.cons_append]
        exact (List.subperm_cons _).mpr ih
      | none =>
        simp only [validate, hdb, List.map_cons]
        exact List.perm_middle.subperm.trans ((List.subperm_cons _).mpr ih)


/-! ### Lemmas on the persistence-and-completion loop -/

/-- When every store insert succeeds, the loop persists a record and sends
a `Proof` completion for every item, in order. -/
theorem persistLoop_ok (db : Database) (items : List (TreeResult × Hash × ReqId))
    (h : ∀ x ∈ items,
      db.insertPendingIdentity x.1.leafIndex x.2.1 x.1.root = Except.ok ()) :
    persistLoop db items = (items.map completionOf, items.map recordOf, none) := by
  induction items with
  | nil => simp [persistLoop]
  | cons x rest ih =>
    obtain ⟨tr, ident, rid⟩ := x
    have hx := h _ (List.mem_cons_self _ _)
    simp only [persistLoop, hx]
    rw [ih fun y hy => h y (List.mem_cons_of_mem _ hy)]
    rfl

/-- When the store insert fails at one item, the loop stops there: exactly
the earlier items are persisted and completed, and the error is returned. -/
theorem persistLoop_err (db : Database)
    (pre : List (TreeResult × Hash × ReqId)) (bad : TreeResult × Hash × ReqId)
    (post : List (TreeResult × Hash × ReqId)) (e : DbError)
    (hpre : ∀ x ∈ pre,
      db.insertPendingIdentity x.1.leafIndex x.2.1 x.1.root = Except.ok ())
    (hbad : db.insertPendingIdentity bad.1.leafIndex bad.2.1 bad.1.root =
      Except.error e) :
    persistLoop db (pre ++ bad :: post) =
      (pre.map completionOf, pre.map recordOf, some e) := by
  induction pre with
  | nil =>
    obtain ⟨tr, ident, rid⟩ := bad
    simp only [List.nil_append, persistLoop, hbad, List.map_nil]
  | cons x rest ih =>
    obtain ⟨tr, ident, rid⟩ := x
    have hx := hpre _ (List.mem_cons_self _ _)
    simp only [List.cons_append, persistLoop, hx]
    simp only [List.append_eq]
    rw [ih fun y hy => hpre y (List.mem_cons_of_mem _ hy)]
    rfl

/-- The identifiers completed by the loop form a sublist of the item
identifiers (the loop completes a prefix of the items). -/
theorem persistLoop_events_sublist (db : Database)
    (items : List (TreeResult × Hash × ReqId)) :
    ((persistLoop db items).1.map Prod.fst).Sublist (items.map (·.2.2)) := by
  induction items with
  | nil => simp [persistLoop]
  | cons x rest ih =>
    obtain ⟨tr, ident, rid⟩ := x
    rcases hdb : db.insertPendingIdentity tr.leafIndex ident tr.root with e | u
    · simp only [persistLoop, hdb, List.map_nil, List.map_cons]
      exact List.nil_sublist _
    · simp only [persistLoop, hdb, List.map_cons]
      exact ih.cons₂ rid

/-! ### Lemmas on `threeWayZip` -/

/-- `three_way_zip` applied to the unzipped identity and sender columns is
the plain zip of the tree results with the admitted requests. -/
theorem threeWayZip_of_maps (data : List TreeResult)
    (adm : List IdentityInsert) :
    threeWayZip data (adm.map (·.identity)) (adm.map (·.reqId)) =
      (data.zip adm).map (fun p => (p.1, p.2.identity, p.2.reqId)) := by
  induction data generalizing adm with
  | nil => simp [threeWayZip]
  | cons tr rest ih =>
    match adm with
    | [] => simp [threeWayZip]
    | a :: adm' =>
      simp only [List.map_cons, threeWayZip, List.zip_cons_cons, List.map_cons] at ih ⊢
      exact congrArg _ (ih adm')



/-! ### Branch equations for one pipeline cycle -/

/-- Cycle outcome when a validation lookup errors: the dedup and partial
validation completions were sent, no append, nothing persisted, error
propagated. -/
theorem processBatch_eq_valErr (db : Database) (tree : TreeVersion)
    (batch : List IdentityInsert) (e : DbError)
    (hv : (validate db (dedup batch).2).2.2 = some e) :
    processBatch db tree batch =
      ⟨(dedup batch).1 ++ (validate db (dedup batch).2).1, none, [],
        CycleResult.dbErr e⟩ := by
  simp [processBatch, hv]

/-- Cycle outcome when `get_next_leaf_index` errors. -/
theorem processBatch_eq_nextErr (db : Database) (tree : TreeVersion)
    (batch : List IdentityInsert) (e : DbError)
    (hv : (validate db (dedup batch).2).2.2 = none)
    (hn : db.getNextLeafIndex = Except.error e) :
    processBatch db tree batch =
      ⟨(dedup batch).1 ++ (validate db (dedup batch).2).1, none, [],
        CycleResult.dbErr e⟩ := by
  simp [processBatch, hv, hn]

/-- Cycle outcome when the tree/store consistency `assert!` fires: fatal,
before any append. -/
theorem processBatch_eq_outOfSync (db : Database) (tree : TreeVersion)
    (batch : List IdentityInsert) (n : Nat)
    (hv : (validate db (dedup batch).2).2.2 = none)
    (hn : db.getNextLeafIndex = Except.ok n)
    (hne : tree.nextLeaf ≠ n) :
    processBatch db tree batch =
      ⟨(dedup batch).1 ++ (validate db (dedup batch).2).1, none, [],
        CycleResult.fatal ("Database and tree are out of sync")⟩ := by
  simp [processBatch, hv, hn, hne]

/-- Cycle outcome when the `assert_eq!` on the append result length
fires: fatal, after the append but before any persistence. -/
theorem processBatch_eq_lenMismatch (db : Database) (tree : TreeVersion)
    (batch : List IdentityInsert) (n : Nat)
    (hv : (validate db (dedup batch).2).2.2 = none)
    (hn : db.getNextLeafIndex = Except.ok n)
    (hsync : tree.nextLeaf = n)
    (hlen : (tree.appendMany
        ((validate db (dedup batch).2).2.1.map (·.identity))).length ≠
      ((validate db (dedup batch).2).2.1.map (·.identity)).length) :
    processBatch db tree batch =
      ⟨(dedup batch).1 ++ (validate db (dedup batch).2).1,
        some ((validate db (dedup batch).2).2.1.map (·.identity)), [],
        CycleResult.fatal ("Length mismatch when appending identities to tree")⟩ := by
  subst hsync
  simp only [List.length_map] at hlen
  simp [processBatch, hv, hn, hlen]

/-- Cycle outcome when both assertions pass: the cycle runs the
persistence-and-completion loop over the three-way zip. -/
theorem processBatch_eq_persist (db : Database) (tree : TreeVersion)
    (batch : List IdentityInsert) (n : Nat)
    (hv : (validate db (dedup batch).2).2.2 = none)
    (hn : db.getNextLeafIndex = Except.ok n)
    (hsync : tree.nextLeaf = n)
    (hlen : (tree.appendMany
        ((validate db (dedup batch).2).2.1.map (·.identity))).length =
      ((validate db (dedup batch).2).2.1.map (·.identity)).length) :
    processBatch db tree batch =
      ⟨(dedup batch).1 ++ (validate db (dedup batch).2).1 ++
          (persistLoop db (threeWayZip
            (tree.appendMany ((validate db (dedup batch).2).2.1.map (·.identity)))
            ((validate db (dedup batch).2).2.1.map (·.identity))
            ((validate db (dedup batch).2).2.1.map (·.reqId)))).1,
        some ((validate db (dedup batch).2).2.1.map (·.identity)),
        (persistLoop db (threeWayZip
          (tree.appendMany ((validate db (dedup batch).2).2.1.map (·.identity)))
          ((validate db (dedup batch).2).2.1.map (·.identity))
          ((validate db (dedup batch).2).2.1.map (·.reqId)))).2.1,
        match (persistLoop db (threeWayZip
          (tree.appendMany ((validate db (dedup batch).2).2.1.map (·.identity)))
          ((validate db (dedup batch).2).2.1.map (·.identity))
          ((validate db (dedup batch).2).2.1.map (·.reqId)))).2.2 with
        | some e => CycleResult.dbErr e
        | none => CycleResult.ok⟩ := by
  subst hsync
  simp only [List.length_map] at hlen
  simp [processBatch, hv, hn, hlen]


/-! ### Claim theorems: the insertion pipeline -/

/-- C2: for every drained batch scanned in arrival order, the kept
requests carry pairwise distinct identities; an identity survives iff it
occurs in the batch; each kept request is the first request in the batch
with its identity; every completion the dedup stage sends is
`DuplicateCommitment`; every request identifier is either completed here
or kept (permutation), so every later duplicate is completed and exactly
one request per distinct identity proceeds to admission. The dedup stage
(`dedup`) takes neither the database nor the tree, so no store or tree
access happens on its behalf. -/
theorem intra_batch_dedup (batch : List IdentityInsert) :
    ((dedup batch).2.map (·.identity)).Nodup
    ∧ (∀ h, h ∈ (dedup batch).2.map (·.identity) ↔ h ∈ batch.map (·.identity))
    ∧ (∀ r ∈ (dedup batch).2,
        batch.find? (fun x => x.identity == r.identity) = some r)
    ∧ (∀ e ∈ (dedup batch).1, e.2 = OnInsertComplete.DuplicateCommitment)
    ∧ ((dedup batch).1.map Prod.fst ++
        (dedup batch).2.map (·.reqId)).Perm (batch.map (·.reqId))
    ∧ (dedup batch).2.Sublist batch := by
  refine ⟨dedupGo_kept_nodup [] batch, ?_, dedupGo_kept_first [] batch,
    dedupGo_events_dup [] batch, dedupGo_perm [] batch,
    dedupGo_kept_sublist [] batch⟩
  intro h
  rw [dedup, dedupGo_mem_identity [] batch h]
  simp

/-- C4: in every pipeline cycle that completes validation, if the tree's
next free leaf index differs from the store's, the cycle ends with the
fatal out-of-sync `assert!` and no append is attempted; if they agree,
the cycle proceeds to the tree append of the admitted identities. -/
theorem tree_store_sync_check (db : Database) (tree : TreeVersion)
    (batch : List IdentityInsert) (n : Nat)
    (hv : (validate db (dedup batch).2).2.2 = none)
    (hn : db.getNextLeafIndex = Except.ok n) :
    (tree.nextLeaf ≠ n →
      (processBatch db tree batch).result =
          CycleResult.fatal ("Database and tree are out of sync")
        ∧ (processBatch db tree batch).appended = none)
    ∧ (tree.nextLeaf = n →
      (processBatch db tree batch).appended =
        some ((validate db (dedup batch).2).2.1.map (·.identity))) := by
  constructor
  · intro hne
    rw [processBatch_eq_outOfSync db tree batch n hv hn hne]
    exact ⟨rfl, rfl⟩
  · intro hsync
    by_cases hlen : (tree.appendMany
        ((validate db (dedup batch).2).2.1.map (·.identity))).length =
      ((validate db (dedup batch).2).2.1.map (·.identity)).length
    · rw [processBatch_eq_persist db tree batch n hv hn hsync hlen]
    · rw [processBatch_eq_lenMismatch db tree batch n hv hn hsync hlen]

/-- Witness for C4 at tree next-leaf 5 versus store next-leaf 4: the cycle
ends fatally before any append. -/
theorem tree_store_sync_check_witness :
    (validate ⟨fun _ => Except.ok none, Except.ok 4, fun _ _ _ => Except.ok ()⟩
        (dedup [⟨1, 0⟩]).2).2.2 = none
    ∧ (5 : Nat) ≠ 4
    ∧ (processBatch
          ⟨fun _ => Except.ok none, Except.ok 4, fun _ _ _ => Except.ok ()⟩
          ⟨5, fun _ => []⟩ [⟨1, 0⟩]).result =
        CycleResult.fatal ("Database and tree are out of sync")
    ∧ (processBatch
          ⟨fun _ => Except.ok none, Except.ok 4, fun _ _ _ => Except.ok ()⟩
          ⟨5, fun _ => []⟩ [⟨1, 0⟩]).appended = none :=
  ⟨rfl, by decide,
    (tree_store_sync_check
      ⟨fun _ => Except.ok none, Except.ok 4, fun _ _ _ => Except.ok ()⟩
      ⟨5, fun _ => []⟩ [⟨1, 0⟩] 4 rfl rfl).1 (by decide)⟩

/-- C5: in a cycle that reaches the tree append, if `append_many` returns
a different number of results than identities submitted, the cycle ends
with the fatal length `assert_eq!`, nothing is persisted, and no admitted
request is completed (all completions sent are dedup rejections); if the
counts agree, the cycle proceeds to persistence and completion (it ends
ok or with a store error, never with this assertion). -/
theorem append_length_check (db : Database) (tree : TreeVersion)
    (batch : List IdentityInsert) (n : Nat)
    (hv : (validate db (dedup batch).2).2.2 = none)
    (hn : db.getNextLeafIndex = Except.ok n)
    (hsync : tree.nextLeaf = n) :
    ((tree.appendMany
          ((validate db (dedup batch).2).2.1.map (·.identity))).length ≠
        ((validate db (dedup batch).2).2.1.map (·.identity)).length →
      (processBatch db tree batch).result =
          CycleResult.fatal ("Length mismatch when appending identities to tree")
        ∧ (processBatch db tree batch).persisted = []
        ∧ ∀ e ∈ (processBatch db tree batch).events,
            e.2 = OnInsertComplete.DuplicateCommitment)
    ∧ ((tree.appendMany
          ((validate db (dedup batch).2).2.1.map (·.identity))).length =
        ((validate db (dedup batch).2).2.1.map (·.identity)).length →
      (processBatch db tree batch).result = CycleResult.ok ∨
        ∃ e, (processBatch db tree batch).result = CycleResult.dbErr e) := by
  constructor
  · intro hlen
    rw [processBatch_eq_lenMismatch db tree batch n hv hn hsync hlen]
    refine ⟨rfl, rfl, ?_⟩
    intro e he
    rcases List.mem_append.mp he with h1 | h1
    · exact dedupGo_events_dup _ _ e h1
    · exact validate_events_dup _ _ e h1
  · intro hlen
    rw [processBatch_eq_persist db tree batch n hv hn hsync hlen]
    rcases hp : (persistLoop db (threeWayZip
        (tree.appendMany ((validate db (dedup batch).2).2.1.map (·.identity)))
        ((validate db (dedup batch).2).2.1.map (·.identity))
        ((validate db (dedup batch).2).2.1.map (·.reqId)))).2.2 with _ | e
    · left
      simp [hp]
    · right
      exact ⟨e, by simp [hp]⟩

/-- Witness for C5: a tree whose `append_many` returns no results for one
identity trips the length assertion. -/
theorem append_length_check_witness :
    (validate ⟨fun _ => Except.ok none, Except.ok 0, fun _ _ _ => Except.ok ()⟩
        (dedup [⟨1, 0⟩]).2).2.2 = none
    ∧ (processBatch
          ⟨fun _ => Except.ok none, Except.ok 0, fun _ _ _ => Except.ok ()⟩
          ⟨0, fun _ => []⟩ [⟨1, 0⟩]).result =
        CycleResult.fatal ("Length mismatch when appending identities to tree")
    ∧ (processBatch
          ⟨fun _ => Except.ok none, Except.ok 0, fun _ _ _ => Except.ok ()⟩
          ⟨0, fun _ => []⟩ [⟨1, 0⟩]).persisted = []
    ∧ ∀ e ∈ (processBatch
          ⟨fun _ => Except.ok none, Except.ok 0, fun _ _ _ => Except.ok ()⟩
          ⟨0, fun _ => []⟩ [⟨1, 0⟩]).events,
        e.2 = OnInsertComplete.DuplicateCommitment :=
  ⟨rfl,
    (append_length_check
      ⟨fun _ => Except.ok none, Except.ok 0, fun _ _ _ => Except.ok ()⟩
      ⟨0, fun _ => []⟩ [⟨1, 0⟩] 0 rfl rfl rfl).1 (by decide)⟩


/-- Every batch request is either kept by the dedup loop or completed by
it as a duplicate. -/
theorem dedupGo_mem_or_event (seen : List Hash) (l : List IdentityInsert) :
    ∀ r ∈ l, r ∈ (dedupGo seen l).2 ∨
      (r.reqId, OnInsertComplete.DuplicateCommitment) ∈ (dedupGo seen l).1 := by
  induction l generalizing seen with
  | nil => simp
  | cons i rest ih =>
    by_cases hmem : i.identity ∈ seen
    · simp only [dedupGo, if_pos hmem]
      intro r hr
      rcases List.mem_cons.mp hr with heq | hr'
      · subst heq
        exact Or.inr (List.mem_cons_self _ _)
      · rcases ih seen r hr' with h | h
        · exact Or.inl h
        · exact Or.inr (List.mem_cons_of_mem _ h)
    · simp only [dedupGo, if_neg hmem]
      intro r hr
      rcases List.mem_cons.mp hr with heq | hr'
      · subst heq
        exact Or.inl (List.mem_cons_self _ _)
      · rcases ih (i.identity :: seen) r hr' with h | h
        · exact Or.inl (List.mem_cons_of_mem _ h)
        · exact Or.inr h

/-- C3: when every store lookup of the batch succeeds, any request whose
identity already has a leaf index in the store is completed
`DuplicateCommitment`, and its identity is never part of an argument to
the tree append (the tree is not mutated on its behalf); any surviving
request whose identity is absent from the store is kept for admission. -/
theorem cross_batch_dedup (db : Database) (tree : TreeVersion)
    (batch : List IdentityInsert)
    (hok : ∀ r ∈ batch, ∃ o, db.getIdentityLeafIndex r.identity = Except.ok o) :
    (∀ req ∈ batch, ∀ idx,
      db.getIdentityLeafIndex req.identity = Except.ok (some idx) →
      (req.reqId, OnInsertComplete.DuplicateCommitment) ∈
          (processBatch db tree batch).events
        ∧ ∀ l, (processBatch db tree batch).appended = some l →
            req.identity ∉ l)
    ∧ (∀ req ∈ (dedup batch).2,
        db.getIdentityLeafIndex req.identity = Except.ok none →
        req ∈ (validate db (dedup batch).2).2.1) := by
  have hv : (validate db (dedup batch).2).2.2 = none :=
    validate_no_error db _
      (fun i hi => hok i ((dedupGo_kept_sublist [] batch).subset hi))
  constructor
  · intro req hreq idx hidx
    have hmem : (req.reqId, OnInsertComplete.DuplicateCommitment) ∈
        (dedup batch).1 ++ (validate db (dedup batch).2).1 := by
      rcases dedupGo_mem_or_event [] batch req hreq with hk | he
      · exact List.mem_append_right _ (validate_dup_event db _ hv req hk idx hidx)
      · exact List.mem_append_left _ he
    have hnotin : req.identity ∉
        (validate db (dedup batch).2).2.1.map (·.identity) := by
      intro hin
      rcases List.mem_map.mp hin with ⟨j, hj, hja⟩
      have hjn := validate_kept_none db _ j hj
      rw [hja, hidx] at hjn
      exact absurd hjn (by simp)
    rcases hn : db.getNextLeafIndex with e | n
    · rw [processBatch_eq_nextErr db tree batch e hv hn]
      exact ⟨hmem, fun l hl => Option.noConfusion hl⟩
    · by_cases hs : tree.nextLeaf ≠ n
      · rw [processBatch_eq_outOfSync db tree batch n hv hn hs]
        exact ⟨hmem, fun l hl => Option.noConfusion hl⟩
      · have hsync : tree.nextLeaf = n := not_ne_iff.mp hs
        by_cases hlen : (tree.appendMany
            ((validate db (dedup batch).2).2.1.map (·.identity))).length =
          ((validate db (dedup batch).2).2.1.map (·.identity)).length
        · rw [processBatch_eq_persist db tree batch n hv hn hsync hlen]
          refine ⟨List.mem_append_left _ hmem, ?_⟩
          intro l hl
          rw [← Option.some.inj hl]
          exact hnotin
        · rw [processBatch_eq_lenMismatch db tree batch n hv hn hsync hlen]
          refine ⟨hmem, ?_⟩
          intro l hl
          rw [← Option.some.inj hl]
          exact hnotin
  · intro req hreq hnone
    exact validate_kept_mem db _ hv req hreq hnone

/-- Witness for C3: identity 5 is already in the store; its request is
completed as a duplicate and 5 is not appended, while identity 6 is kept. -/
theorem cross_batch_dedup_witness :
    ((0 : ReqId), OnInsertComplete.DuplicateCommitment) ∈
        (processBatch
          ⟨fun h => if h = 5 then Except.ok (some 0) else Except.ok none,
            Except.ok 0, fun _ _ _ => Except.ok ()⟩
          ⟨0, fun l => l.map (fun _ => ⟨0, 0, 0⟩)⟩
          [⟨5, 0⟩, ⟨6, 1⟩]).events
      ∧ ∀ l, (processBatch
          ⟨fun h => if h = 5 then Except.ok (some 0) else Except.ok none,
            Except.ok 0, fun _ _ _ => Except.ok ()⟩
          ⟨0, fun l => l.map (fun _ => ⟨0, 0, 0⟩)⟩
          [⟨5, 0⟩, ⟨6, 1⟩]).appended = some l → (5 : Hash) ∉ l :=
  (cross_batch_dedup
    ⟨fun h => if h = 5 then Except.ok (some 0) else Except.ok none,
      Except.ok 0, fun _ _ _ => Except.ok ()⟩
    ⟨0, fun l => l.map (fun _ => ⟨0, 0, 0⟩)⟩
    [⟨5, 0⟩, ⟨6, 1⟩]
    (by intro r hr; fin_cases hr <;> exact ⟨_, rfl⟩)).1
    ⟨5, 0⟩ (by decide) 0 rfl


/-- When the loop reports no error, it completed and persisted every item. -/
theorem persistLoop_none (db : Database)
    (items : List (TreeResult × Hash × ReqId))
    (h : (persistLoop db items).2.2 = none) :
    (persistLoop db items).1 = items.map completionOf ∧
      (persistLoop db items).2.1 = items.map recordOf := by
  induction items with
  | nil => simp [persistLoop]
  | cons x rest ih =>
    obtain ⟨tr, ident, rid⟩ := x
    rcases hdb : db.insertPendingIdentity tr.leafIndex ident tr.root with e | u
    · rw [show persistLoop db ((tr, ident, rid) :: rest) = ([], [], some e) by
        simp [persistLoop, hdb]] at h
      exact absurd h (by simp)
    · simp only [persistLoop, hdb] at h ⊢
      obtain ⟨h1, h2⟩ := ih h
      constructor
      · rw [List.map_cons, h1]
        rfl
      · rw [List.map_cons, h2]
        rfl

/-- The sender column of the three-way zip is exactly the admitted
senders, when the tree returned one result per admitted identity. -/
theorem threeWayZip_map_third_eq (data : List TreeResult)
    (adm : List IdentityInsert) (h : data.length = adm.length) :
    (threeWayZip data (adm.map (·.identity)) (adm.map (·.reqId))).map
        (·.2.2) = adm.map (·.reqId) := by
  have hcomp : ((fun x : TreeResult × Hash × ReqId => x.2.2) ∘
      (fun p : TreeResult × IdentityInsert =>
        (p.1, p.2.identity, p.2.reqId))) =
      (fun a : IdentityInsert => a.reqId) ∘ Prod.snd := rfl
  rw [threeWayZip_of_maps data adm, List.map_map, hcomp, ← List.map_map]
  rw [List.map_snd_zip _ _ (le_of_eq h.symm)]

/-- The identifiers completed by the dedup stage and the validation stage
inject into the batch identifiers. -/
theorem pipeline_front_ids_subperm (db : Database)
    (batch : List IdentityInsert) :
    ((dedup batch).1.map Prod.fst ++
        (validate db (dedup batch).2).1.map Prod.fst).Subperm
      (batch.map (·.reqId)) := by
  have h1 : ((validate db (dedup batch).2).1.map Prod.fst).Subperm
      ((dedup batch).2.map (·.reqId)) :=
    (List.sublist_append_left _ _).subperm.trans (validate_subperm db _)
  exact ((List.subperm_append_left _).mpr h1).trans
    (dedupGo_perm [] batch).subperm

/-- When validation completes, the dedup completion identifiers, the
validation completion identifiers and the admitted identifiers together
are a permutation of the batch identifiers. -/
theorem pipeline_ids_perm (db : Database) (batch : List IdentityInsert)
    (hv : (validate db (dedup batch).2).2.2 = none) :
    (((dedup batch).1.map Prod.fst ++
          (validate db (dedup batch).2).1.map Prod.fst) ++
        (validate db (dedup batch).2).2.1.map (·.reqId)).Perm
      (batch.map (·.reqId)) := by
  rw [List.append_assoc]
  exact ((validate_perm db _ hv).append_left _).trans (dedupGo_perm [] batch)


/-- C7: in a successfully completed batch cycle, the admitted requests
are a sublist of the drained batch (same relative order after dedup
removals), and the completions consist of the dedup rejections followed
by exactly the zip of the `append_many` results with the admitted
requests, so the i-th admitted request receives the i-th
`(root, proof, leaf_index)` result. -/
theorem completion_order (db : Database) (tree : TreeVersion)
    (batch : List IdentityInsert) (n : Nat)
    (hv : (validate db (dedup batch).2).2.2 = none)
    (hn : db.getNextLeafIndex = Except.ok n)
    (hsync : tree.nextLeaf = n)
    (hlen : (tree.appendMany
        ((validate db (dedup batch).2).2.1.map (·.identity))).length =
      ((validate db (dedup batch).2).2.1.map (·.identity)).length)
    (hper : (persistLoop db (threeWayZip
        (tree.appendMany ((validate db (dedup batch).2).2.1.map (·.identity)))
        ((validate db (dedup batch).2).2.1.map (·.identity))
        ((validate db (dedup batch).2).2.1.map (·.reqId)))).2.2 = none) :
    (processBatch db tree batch).result = CycleResult.ok
    ∧ (validate db (dedup batch).2).2.1.Sublist batch
    ∧ ∃ pre, (∀ e ∈ pre, e.2 = OnInsertComplete.DuplicateCommitment)
        ∧ (processBatch db tree batch).events = pre ++
            ((tree.appendMany
                ((validate db (dedup batch).2).2.1.map (·.identity))).zip
              (validate db (dedup batch).2).2.1).map
              (fun p => (p.2.reqId,
                OnInsertComplete.Proof Status.Pending p.1.root p.1.proof)) := by
  rw [processBatch_eq_persist db tree batch n hv hn hsync hlen]
  refine ⟨by simp [hper],
    (validate_kept_sublist db _).trans (dedupGo_kept_sublist [] batch),
    (dedup batch).1 ++ (validate db (dedup batch).2).1, ?_, ?_⟩
  · intro e he
    rcases List.mem_append.mp he with h1 | h1
    · exact dedupGo_events_dup _ _ e h1
    · exact validate_events_dup _ _ e h1
  · have hp1 := (persistLoop_none db _ hper).1
    show (dedup batch).1 ++ (validate db (dedup batch).2).1 ++ _ = _
    rw [hp1, threeWayZip_of_maps, List.map_map]
    rfl

/-- Witness for C7 on a two-request batch with a well-behaved store and
tree: the cycle completes and the admitted requests form a sublist. -/
theorem completion_order_witness :
    (processBatch ⟨fun _ => Except.ok none, Except.ok 0, fun _ _ _ => Except.ok ()⟩
        ⟨0, fun l => l.map (fun h => ⟨h + 100, h + 200, 0⟩)⟩
        [⟨1, 10⟩, ⟨2, 20⟩]).result = CycleResult.ok
    ∧ (validate ⟨fun _ => Except.ok none, Except.ok 0, fun _ _ _ => Except.ok ()⟩
        (dedup [⟨1, 10⟩, ⟨2, 20⟩]).2).2.1.Sublist [⟨1, 10⟩, ⟨2, 20⟩] := by
  have h := completion_order
    ⟨fun _ => Except.ok none, Except.ok 0, fun _ _ _ => Except.ok ()⟩
    ⟨0, fun l => l.map (fun h => ⟨h + 100, h + 200, 0⟩)⟩
    [⟨1, 10⟩, ⟨2, 20⟩] 0 rfl rfl rfl rfl rfl
  exact ⟨h.1, h.2.1⟩


/-- C10: if `insert_pending_identity` fails on one admitted item, the
cycle ends with that error; the tree append of all admitted identities
was already applied; exactly the earlier items are persisted; the
completions are the dedup rejections followed by the earlier items'
`Proof` completions; and no admitted item at or after the failure point
receives any completion signal. -/
theorem persist_failure_midway (db : Database) (tree : TreeVersion)
    (batch : List IdentityInsert) (n : Nat) (e : DbError)
    (ipre : List (TreeResult × Hash × ReqId))
    (bad : TreeResult × Hash × ReqId)
    (ipost : List (TreeResult × Hash × ReqId))
    (hnodup : (batch.map (·.reqId)).Nodup)
    (hv : (validate db (dedup batch).2).2.2 = none)
    (hn : db.getNextLeafIndex = Except.ok n)
    (hsync : tree.nextLeaf = n)
    (hlen : (tree.appendMany
        ((validate db (dedup batch).2).2.1.map (·.identity))).length =
      ((validate db (dedup batch).2).2.1.map (·.identity)).length)
    (hitems : threeWayZip
        (tree.appendMany ((validate db (dedup batch).2).2.1.map (·.identity)))
        ((validate db (dedup batch).2).2.1.map (·.identity))
        ((validate db (dedup batch).2).2.1.map (·.reqId)) =
      ipre ++ bad :: ipost)
    (hpre : ∀ x ∈ ipre,
      db.insertPendingIdentity x.1.leafIndex x.2.1 x.1.root = Except.ok ())
    (hbad : db.insertPendingIdentity bad.1.leafIndex bad.2.1 bad.1.root =
      Except.error e) :
    (processBatch db tree batch).result = CycleResult.dbErr e
    ∧ (processBatch db tree batch).appended =
        some ((validate db (dedup batch).2).2.1.map (·.identity))
    ∧ (processBatch db tree batch).persisted = ipre.map recordOf
    ∧ (∃ pre, (∀ ev ∈ pre, ev.2 = OnInsertComplete.DuplicateCommitment)
        ∧ (processBatch db tree batch).events = pre ++ ipre.map completionOf)
    ∧ ∀ x ∈ bad :: ipost, ∀ o,
        (x.2.2, o) ∉ (processBatch db tree batch).events := by
  have hploop : persistLoop db (threeWayZip
      (tree.appendMany ((validate db (dedup batch).2).2.1.map (·.identity)))
      ((validate db (dedup batch).2).2.1.map (·.identity))
      ((validate db (dedup batch).2).2.1.map (·.reqId))) =
      (ipre.map completionOf, ipre.map recordOf, some e) := by
    rw [hitems]
    exact persistLoop_err db ipre bad ipost e hpre hbad
  have hlen' : (tree.appendMany
      ((validate db (dedup batch).2).2.1.map (·.identity))).length =
      (validate db (dedup batch).2).2.1.length := by
    rw [hlen, List.length_map]
  have hadm : (validate db (dedup batch).2).2.1.map (·.reqId) =
      (ipre ++ bad :: ipost).map (·.2.2) := by
    rw [← hitems]
    exact (threeWayZip_map_third_eq _ _ hlen').symm
  rw [processBatch_eq_persist db tree batch n hv hn hsync hlen]
  refine ⟨by simp [hploop], rfl, by simp [hploop], ?_, ?_⟩
  · refine ⟨(dedup batch).1 ++ (validate db (dedup batch).2).1, ?_, ?_⟩
    · intro ev hev
      rcases List.mem_append.mp hev with h1 | h1
      · exact dedupGo_events_dup _ _ ev h1
      · exact validate_events_dup _ _ ev h1
    · show (dedup batch).1 ++ (validate db (dedup batch).2).1 ++ _ = _
      rw [hploop]
  · intro x hx o habs
    have hxid : x.2.2 ∈ (bad :: ipost).map (·.2.2) :=
      List.mem_map_of_mem _ hx
    have hnodupAll : (((dedup batch).1.map Prod.fst ++
        (validate db (dedup batch).2).1.map Prod.fst) ++
        (validate db (dedup batch).2).2.1.map (·.reqId)).Nodup :=
      (pipeline_ids_perm db batch hv).nodup_iff.mpr hnodup
    rw [List.nodup_append] at hnodupAll
    obtain ⟨hfrontNodup, hadmNodup, hdisj⟩ := hnodupAll
    have hadmSplit : (validate db (dedup batch).2).2.1.map (·.reqId) =
        ipre.map (·.2.2) ++ (bad :: ipost).map (·.2.2) := by
      rw [hadm, List.map_append]
    have hxadm : x.2.2 ∈ (validate db (dedup batch).2).2.1.map (·.reqId) := by
      rw [hadmSplit]
      exact List.mem_append_right _ hxid
    have hidIn : x.2.2 ∈ ((dedup batch).1 ++ (validate db (dedup batch).2).1
        ++ (persistLoop db (threeWayZip
          (tree.appendMany ((validate db (dedup batch).2).2.1.map (·.identity)))
          ((validate db (dedup batch).2).2.1.map (·.identity))
          ((validate db (dedup batch).2).2.1.map (·.reqId)))).1).map Prod.fst :=
      List.mem_map_of_mem Prod.fst habs
    rw [hploop] at hidIn
    simp only [List.map_append, List.map_map] at hidIn
    rcases List.mem_append.mp hidIn with h1 | h1
    · rcases List.mem_append.mp h1 with h2 | h2
      · exact hdisj (List.mem_append_left _ h2) hxadm
      · exact hdisj (List.mem_append_right _ h2) hxadm
    · rw [hadmSplit, List.nodup_append] at hadmNodup
      obtain ⟨_, _, hdisj2⟩ := hadmNodup
      have h1' : x.2.2 ∈ ipre.map (·.2.2) := by
        have hcomp : (Prod.fst ∘ completionOf) =
            (fun y : TreeResult × Hash × ReqId => y.2.2) := rfl
        rw [hcomp] at h1
        exact h1
      exact hdisj2 h1' hxid


/-- Witness for C10: the store rejects the pending insert at leaf index 1,
so the second admitted request (sender 20) receives no completion while
the cycle ends with that store error. -/
theorem persist_failure_midway_witness :
    (processBatch
        ⟨fun _ => Except.ok none, Except.ok 0,
          fun li _ _ => if li = 1 then Except.error (DbError.ioError 7)
            else Except.ok ()⟩
        ⟨0, fun l => (List.range l.length).map (fun i => ⟨i, i, i⟩)⟩
        [⟨1, 10⟩, ⟨2, 20⟩]).result = CycleResult.dbErr (DbError.ioError 7)
    ∧ ∀ o, ((20 : ReqId), o) ∉ (processBatch
        ⟨fun _ => Except.ok none, Except.ok 0,
          fun li _ _ => if li = 1 then Except.error (DbError.ioError 7)
            else Except.ok ()⟩
        ⟨0, fun l => (List.range l.length).map (fun i => ⟨i, i, i⟩)⟩
        [⟨1, 10⟩, ⟨2, 20⟩]).events := by
  have h := persist_failure_midway
    ⟨fun _ => Except.ok none, Except.ok 0,
      fun li _ _ => if li = 1 then Except.error (DbError.ioError 7)
        else Except.ok ()⟩
    ⟨0, fun l => (List.range l.length).map (fun i => ⟨i, i, i⟩)⟩
    [⟨1, 10⟩, ⟨2, 20⟩] 0 (DbError.ioError 7)
    [(⟨0, 0, 0⟩, 1, 10)] (⟨1, 1, 1⟩, 2, 20) []
    (by decide) rfl rfl rfl rfl rfl
    (by intro x hx; fin_cases hx; rfl) rfl
  exact ⟨h.1, fun o => h.2.2.2.2 (⟨1, 1, 1⟩, 2, 20) (List.mem_cons_self _ _) o⟩


/-- C1 counterexample: a single accepted (non-duplicate) request on a
cycle whose pending-insert store call fails receives no completion signal
at all: the cycle ends with the store error and the events list is empty,
refuting "exactly one completion signal even on error paths". -/
theorem completion_on_error_counterexample :
    (processBatch
        ⟨fun _ => Except.ok none, Except.ok 0,
          fun _ _ _ => Except.error (DbError.ioError 0)⟩
        ⟨0, fun l => l.map (fun _ => ⟨0, 0, 0⟩)⟩ [⟨7, 0⟩]).events = []
    ∧ (processBatch
        ⟨fun _ => Except.ok none, Except.ok 0,
          fun _ _ _ => Except.error (DbError.ioError 0)⟩
        ⟨0, fun l => l.map (fun _ => ⟨0, 0, 0⟩)⟩ [⟨7, 0⟩]).result =
      CycleResult.dbErr (DbError.ioError 0) :=
  ⟨rfl, rfl⟩

/-- C1 (amended): with pairwise distinct completion channels, every
accepted request receives at most one completion signal in every cycle;
in a cycle that terminates without a store error, every accepted request
receives exactly one. -/
theorem completion_exactly_once (db : Database) (tree : TreeVersion)
    (batch : List IdentityInsert)
    (hnodup : (batch.map (·.reqId)).Nodup) :
    (∀ r ∈ batch,
      ((processBatch db tree batch).events.map Prod.fst).count r.reqId ≤ 1)
    ∧ ((processBatch db tree batch).result = CycleResult.ok →
      ∀ r ∈ batch,
        ((processBatch db tree batch).events.map Prod.fst).count
          r.reqId = 1) := by
  have hcount_front : ∀ r ∈ batch,
      ((((dedup batch).1 ++ (validate db (dedup batch).2).1).map
        Prod.fst).count r.reqId) ≤ 1 := by
    intro r hr
    have hsub : (((dedup batch).1 ++ (validate db (dedup batch).2).1).map
        Prod.fst).Subperm (batch.map (·.reqId)) := by
      rw [List.map_append]
      exact pipeline_front_ids_subperm db batch
    exact le_trans (hsub.count_le _) (List.nodup_iff_count_le_one.mp hnodup _)
  rcases hv : (validate db (dedup batch).2).2.2 with _ | e
  · rcases hn : db.getNextLeafIndex with e | n
    · rw [processBatch_eq_nextErr db tree batch e hv hn]
      exact ⟨hcount_front, fun habs => absurd habs (by simp)⟩
    · by_cases hs : tree.nextLeaf ≠ n
      · rw [processBatch_eq_outOfSync db tree batch n hv hn hs]
        exact ⟨hcount_front, fun habs => absurd habs (by simp)⟩
      · have hsync : tree.nextLeaf = n := not_ne_iff.mp hs
        by_cases hlen : (tree.appendMany
            ((validate db (dedup batch).2).2.1.map (·.identity))).length =
          ((validate db (dedup batch).2).2.1.map (·.identity)).length
        · rw [processBatch_eq_persist db tree batch n hv hn hsync hlen]
          have hlen' : (tree.appendMany
              ((validate db (dedup batch).2).2.1.map (·.identity))).length =
              (validate db (dedup batch).2).2.1.length := by
            rw [hlen, List.length_map]
          have hthird : (threeWayZip
              (tree.appendMany
                ((validate db (dedup batch).2).2.1.map (·.identity)))
              ((validate db (dedup batch).2).2.1.map (·.identity))
              ((validate db (dedup batch).2).2.1.map (·.reqId))).map (·.2.2) =
              (validate db (dedup batch).2).2.1.map (·.reqId) :=
            threeWayZip_map_third_eq _ _ hlen'
          have hp1 : ((persistLoop db (threeWayZip
              (tree.appendMany
                ((validate db (dedup batch).2).2.1.map (·.identity)))
              ((validate db (dedup batch).2).2.1.map (·.identity))
              ((validate db (dedup batch).2).2.1.map (·.reqId)))).1.map
                Prod.fst).Sublist
              ((validate db (dedup batch).2).2.1.map (·.reqId)) := by
            have hl := persistLoop_events_sublist db (threeWayZip
              (tree.appendMany
                ((validate db (dedup batch).2).2.1.map (·.identity)))
              ((validate db (dedup batch).2).2.1.map (·.identity))
              ((validate db (dedup batch).2).2.1.map (·.reqId)))
            rwa [hthird] at hl
          have hsub : ((((dedup batch).1 ++ (validate db (dedup batch).2).1 ++
              (persistLoop db (threeWayZip
                (tree.appendMany
                  ((validate db (dedup batch).2).2.1.map (·.identity)))
                ((validate db (dedup batch).2).2.1.map (·.identity))
                ((validate db (dedup batch).2).2.1.map (·.reqId)))).1).map
              Prod.fst)).Subperm (batch.map (·.reqId)) := by
            rw [List.map_append, List.map_append]
            exact ((List.subperm_append_left _).mpr hp1.subperm).trans
              (pipeline_ids_perm db batch hv).subperm
          refine ⟨?_, ?_⟩
          · intro r hr
            exact le_trans (hsub.count_le _)
              (List.nodup_iff_count_le_one.mp hnodup _)
          · intro hres r hr
            rcases hp : (persistLoop db (threeWayZip
                (tree.appendMany
                  ((validate db (dedup batch).2).2.1.map (·.identity)))
                ((validate db (dedup batch).2).2.1.map (·.identity))
                ((validate db (dedup batch).2).2.1.map (·.reqId)))).2.2
              with _ | e
            · have hperm : ((((dedup batch).1 ++
                  (validate db (dedup batch).2).1 ++
                  (persistLoop db (threeWayZip
                    (tree.appendMany
                      ((validate db (dedup batch).2).2.1.map (·.identity)))
                    ((validate db (dedup batch).2).2.1.map (·.identity))
                    ((validate db (dedup batch).2).2.1.map (·.reqId)))).1).map
                  Prod.fst)).Perm (batch.map (·.reqId)) := by
                rw [List.map_append, List.map_append,
                  (persistLoop_none db _ hp).1, List.map_map]
                have hcomp : (Prod.fst ∘ completionOf) =
                    (fun y : TreeResult × Hash × ReqId => y.2.2) := rfl
                rw [hcomp, hthird]
                exact pipeline_ids_perm db batch hv
              rw [hperm.count_eq]
              exact List.count_eq_one_of_mem hnodup
                (List.mem_map_of_mem _ hr)
            · exfalso
              simp only [hp] at hres
              exact absurd hres (by simp)
        · rw [processBatch_eq_lenMismatch db tree batch n hv hn hsync hlen]
          exact ⟨hcount_front, fun habs => absurd habs (by simp)⟩
  · rw [processBatch_eq_valErr db tree batch e hv]
    exact ⟨hcount_front, fun habs => absurd habs (by simp)⟩

/-- Witness for C1 (amended) on a clean two-request cycle: both requests
receive exactly one completion. -/
theorem completion_exactly_once_witness :
    ([10, 20] : List ReqId).Nodup
    ∧ ((processBatch
        ⟨fun _ => Except.ok none, Except.ok 0, fun _ _ _ => Except.ok ()⟩
        ⟨0, fun l => l.map (fun h => ⟨h, h, 0⟩)⟩
        [⟨1, 10⟩, ⟨2, 20⟩]).result = CycleResult.ok →
      ∀ r ∈ ([⟨1, 10⟩, ⟨2, 20⟩] : List IdentityInsert),
        ((processBatch
          ⟨fun _ => Except.ok none, Except.ok 0, fun _ _ _ => Except.ok ()⟩
          ⟨0, fun l => l.map (fun h => ⟨h, h, 0⟩)⟩
          [⟨1, 10⟩, ⟨2, 20⟩]).events.map Prod.fst).count r.reqId = 1) :=
  ⟨by decide,
    (completion_exactly_once
      ⟨fun _ => Except.ok none, Except.ok 0, fun _ _ _ => Except.ok ()⟩
      ⟨0, fun l => l.map (fun h => ⟨h, h, 0⟩)⟩
      [⟨1, 10⟩, ⟨2, 20⟩] (by decide)).2⟩



/-! ### Claim theorems: the timed staged lock -/

/-- C8: every acquisition path of the staged lock — read, progress, write,
and the progress-to-write upgrade — succeeds exactly when the underlying
acquisition completes within the single duration configured at
construction, and on failure returns an error naming the operation that
timed out (Read, Progress, or Write — the upgrade reports Write) together
with that configured duration, which the progress guard carries unchanged. -/
theorem stagedLock_timeout_tagged {T : Type} (l : TimedReadProgressLock T)
    (tr tp tw tu t0 : Nat) (g : ProgressGuard T)
    (hg : l.progress t0 = Except.ok g) :
    (tr ≤ l.duration → ∃ g', l.read tr = Except.ok g')
    ∧ (¬ tr ≤ l.duration →
        l.read tr = Except.error ⟨Operation.Read, l.duration⟩)
    ∧ (tp ≤ l.duration → ∃ g', l.progress tp = Except.ok g')
    ∧ (¬ tp ≤ l.duration →
        l.progress tp = Except.error ⟨Operation.Progress, l.duration⟩)
    ∧ (tw ≤ l.duration → ∃ g', l.write tw = Except.ok g')
    ∧ (¬ tw ≤ l.duration →
        l.write tw = Except.error ⟨Operation.Write, l.duration⟩)
    ∧ g.duration = l.duration
    ∧ (tu ≤ l.duration → ∃ g', g.upgradeToWrite tu = Except.ok g')
    ∧ (¬ tu ≤ l.duration →
        g.upgradeToWrite tu = Except.error ⟨Operation.Write, l.duration⟩) := by
  have hgd : g.duration = l.duration := by
    by_cases h0 : t0 ≤ l.duration
    · have hok : (Except.ok ⟨l.duration, l.value⟩ :
          Except LockError (ProgressGuard T)) = Except.ok g := by
        rw [← hg]
        simp [TimedReadProgressLock.progress, timedAcquire, h0]
      rw [← Except.ok.inj hok]
    · rw [TimedReadProgressLock.progress, timedAcquire, if_neg h0] at hg
      exact absurd hg (by simp)
  refine ⟨?_, ?_, ?_, ?_, ?_, ?_, hgd, ?_, ?_⟩
  · intro h
    exact ⟨⟨l.value⟩, by simp [TimedReadProgressLock.read, timedAcquire, h]⟩
  · intro h
    simp [TimedReadProgressLock.read, timedAcquire, h]
  · intro h
    exact ⟨⟨l.duration, l.value⟩,
      by simp [TimedReadProgressLock.progress, timedAcquire, h]⟩
  · intro h
    simp [TimedReadProgressLock.progress, timedAcquire, h]
  · intro h
    exact ⟨⟨l.duration, l.value⟩,
      by simp [TimedReadProgressLock.write, timedAcquire, h]⟩
  · intro h
    simp [TimedReadProgressLock.write, timedAcquire, h]
  · intro h
    exact ⟨⟨g.duration, g.value⟩,
      by simp [ProgressGuard.upgradeToWrite, timedAcquire, hgd, h]⟩
  · intro h
    simp [ProgressGuard.upgradeToWrite, timedAcquire, hgd, h]

/-- Witness for C8 on a lock with duration 5: `progress` at wait 0
succeeds and an upgrade taking 9 units times out with a Write-tagged
error carrying duration 5. -/
theorem stagedLock_timeout_tagged_witness :
    TimedReadProgressLock.progress (⟨5, 0⟩ : TimedReadProgressLock Nat) 0 =
        Except.ok ⟨5, 0⟩
    ∧ ProgressGuard.upgradeToWrite (⟨5, 0⟩ : ProgressGuard Nat) 9 =
        Except.error ⟨Operation.Write, 5⟩ :=
  ⟨rfl,
    (stagedLock_timeout_tagged (⟨5, 0⟩ : TimedReadProgressLock Nat)
        1 2 3 9 0 ⟨5, 0⟩ rfl).2.2.2.2.2.2.2.2 (by decide)⟩

/-- Each transition of the staged lock preserves the two core invariants:
the write view is held only by the progress-mutex owner, and while the
write view is held there are no readers. -/
theorem step_preserves_inv (s s' : LockState) (hstep : Step s s')
    (h1 : ∀ c, s.writer = some c → s.progressOwner = some c)
    (h2 : ∀ c, s.writer = some c → s.readers = []) :
    (∀ c, s'.writer = some c → s'.progressOwner = some c)
    ∧ (∀ c, s'.writer = some c → s'.readers = []) := by
  cases hstep with
  | acquireRead c hw =>
    constructor
    · intro c' hc'
      have hc'' : s.writer = some c' := hc'
      show s.progressOwner = some c'
      exact h1 c' hc''
    · intro c' hc'
      have hc'' : s.writer = some c' := hc'
      rw [hw] at hc''
      exact Option.noConfusion hc''
  | releaseRead c hc =>
    constructor
    · intro c' hc'
      have hc'' : s.writer = some c' := hc'
      show s.progressOwner = some c'
      exact h1 c' hc''
    · intro c' hc'
      have hc'' : s.writer = some c' := hc'
      show s.readers.erase c = []
      rw [h2 c' hc'']
      rfl
  | acquireToken c hp =>
    constructor
    · intro c' hc'
      have hc'' : s.writer = some c' := hc'
      exact absurd (hp.symm.trans (h1 c' hc'')) (by simp)
    · intro c' hc'
      have hc'' : s.writer = some c' := hc'
      show s.readers = []
      exact h2 c' hc''
  | acquireWriteView c hp hr hw =>
    constructor
    · intro c' hc'
      have hc'' : (some c : Option Caller) = some c' := hc'
      show s.progressOwner = some c'
      rw [hp]
      exact hc''
    · intro c' hc'
      show s.readers = []
      exact hr
  | releaseWriteGuard c hw hp =>
    constructor
    · intro c' hc'
      have hc'' : (none : Option Caller) = some c' := hc'
      exact Option.noConfusion hc''
    · intro c' hc'
      have hc'' : (none : Option Caller) = some c' := hc'
      exact Option.noConfusion hc''
  | releaseProgressGuard c hp hw =>
    constructor
    · intro c' hc'
      have hc'' : s.writer = some c' := hc'
      rw [hw] at hc''
      exact Option.noConfusion hc''
    · intro c' hc'
      have hc'' : s.writer = some c' := hc'
      rw [hw] at hc''
      exact Option.noConfusion hc''
  | downgradeToProgress c hw =>
    constructor
    · intro c' hc'
      have hc'' : (none : Option Caller) = some c' := hc'
      exact Option.noConfusion hc''
    · intro c' hc'
      have hc'' : (none : Option Caller) = some c' := hc'
      exact Option.noConfusion hc''

/-- In every reachable state of the staged lock, the write view is held
only by the progress-mutex owner and excludes all readers. -/
theorem reachable_inv (s : LockState) (hs : Reachable s) :
    (∀ c, s.writer = some c → s.progressOwner = some c)
    ∧ (∀ c, s.writer = some c → s.readers = []) := by
  induction hs with
  | init =>
    constructor
    · intro c hc
      exact Option.noConfusion hc
    · intro c hc
      exact Option.noConfusion hc
  | step hr hstep ih => exact step_preserves_inv _ _ hstep ih.1 ih.2

/-- C9: in every reachable state of the staged lock, at most one caller
holds the Progress or Write stage; the write view is only ever held by
the caller that owns the progress mutex (Write is reached only through
Progress); a write holder excludes all readers; and while no write view
is held a new read acquisition is always a legal transition, regardless
of who holds Progress. -/
theorem stagedLock_mutual_exclusion (s : LockState) (hs : Reachable s) :
    (∀ c₁ c₂, holdsStage s c₁ → holdsStage s c₂ → c₁ = c₂)
    ∧ (∀ c, s.writer = some c → s.progressOwner = some c)
    ∧ (∀ c, s.writer = some c → s.readers = [])
    ∧ (∀ c, s.writer = none →
        Step s { s with readers := c :: s.readers }) := by
  obtain ⟨h1, h2⟩ := reachable_inv s hs
  refine ⟨?_, h1, h2, fun c hw => Step.acquireRead s c hw⟩
  intro c₁ c₂ ha hb
  have hpa : s.progressOwner = some c₁ := by
    rcases ha with h | h
    · exact h
    · exact h1 _ h
  have hpb : s.progressOwner = some c₂ := by
    rcases hb with h | h
    · exact h
    · exact h1 _ h
  exact Option.some.inj (hpa.symm.trans hpb)

/-- Witness for C9 at a state where caller 2 holds Progress and caller 1
holds a concurrent read view. -/
theorem stagedLock_mutual_exclusion_witness :
    Reachable ⟨[1], some 2, none⟩
    ∧ ∀ c₁ c₂, holdsStage ⟨[1], some 2, none⟩ c₁ →
        holdsStage ⟨[1], some 2, none⟩ c₂ → c₁ = c₂ := by
  have hreach : Reachable (⟨[1], some 2, none⟩ : LockState) := by
    have h1 : Step initialLockState ⟨[], some 2, none⟩ :=
      Step.acquireToken _ 2 rfl
    have h2 : Step ⟨[], some 2, none⟩ ⟨[1], some 2, none⟩ :=
      Step.acquireRead _ 1 rfl
    exact Reachable.step (Reachable.step Reachable.init h1) h2
  exact ⟨hreach, (stagedLock_mutual_exclusion _ hreach).1⟩

end SignupSequencer

